import Mathlib

/-!
Verification of the XGC analysis middleman pipelines (diffusion and heatload).

The C++ sources `diffusion.cpp` and `heatloadcalc.cpp` implement two
distributed streaming-reduction pipelines.  This file gives a shallow
embedding of their step logic: machine doubles/floats are modelled by `ℚ`
(the design document declares floating-point rounding/ordering out of
scope), MPI collectives by their mathematical semantics (sum-reduction to
the coordinator, variable-length gather as segment writes into a
destination buffer), and the ADIOS2 side effects by explicit event traces.
All definitions below are translated from the source; the one exception is
the block partitioner, whose definition lives in a header not among the
sources and is therefore modelled from the design document.
-/

set_option maxHeartbeats 1000000
set_option linter.unnecessarySeqFocus false

namespace XGC

/-- ADIOS2 step status as returned by `reader.BeginStep()`. -/
inductive StepStatus where
  | ok
  | notReady
  | endOfStream
  | otherError
deriving DecidableEq, Repr

/-- Modelled from the spec: `split_vector` (the BlockPartitioner) is declared in
`util.hpp`, which is not among the sources here; only its call sites appear in
`diffusion.cpp` and `heatloadcalc.cpp`.  §4.2 of the design: `split(blockCount,
workerCount, rank) -> (offset, count)` divides `blockCount` into `workerCount`
contiguous, non-overlapping, gap-free ranges; remainder blocks go to the
earliest-ranked workers (one extra block each), so range lengths differ by at
most one; `blockCount < workerCount` yields empty ranges for higher ranks. -/
def split_vector (blockCount workerCount rank : Nat) : Nat × Nat :=
  let q := blockCount / workerCount
  let m := blockCount % workerCount
  (rank * q + min rank m, q + if rank < m then 1 else 0)

/-- The complete partition contract of the block partitioner, collected in one
predicate: ranges start at 0, are contiguous, cover exactly `[0, B)`, are
pairwise non-overlapping, lengths differ by at most one with remainder blocks
on the earliest ranks, and `B < W` gives higher ranks empty ranges. -/
def splitContract (B W : Nat) : Prop :=
  (split_vector B W 0).1 = 0 ∧
  (∀ r, (split_vector B W (r + 1)).1 = (split_vector B W r).1 + (split_vector B W r).2) ∧
  (split_vector B W (W - 1)).1 + (split_vector B W (W - 1)).2 = B ∧
  (∀ i, i < B → ∃ r, r < W ∧ (split_vector B W r).1 ≤ i ∧
    i < (split_vector B W r).1 + (split_vector B W r).2) ∧
  (∀ r₁ r₂, r₁ < r₂ →
    (split_vector B W r₁).1 + (split_vector B W r₁).2 ≤ (split_vector B W r₂).1) ∧
  (∀ r₁ r₂, (split_vector B W r₁).2 ≤ (split_vector B W r₂).2 + 1) ∧
  (∀ r, r < B % W → (split_vector B W r).2 = B / W + 1) ∧
  (∀ r, B % W ≤ r → (split_vector B W r).2 = B / W) ∧
  (B < W → ∀ r, B ≤ r → (split_vector B W r).2 = 0)

/-- One row of the `table` variable (`NCOL = 11` doubles): the leading entity
(triangle) id followed by the ten per-row fields, in the order listed in the
comment at `Diffusion::step`. -/
structure Row where
  itri : Nat
  i_dr_average : ℚ
  i_dr_squared_average : ℚ
  i_dE_average : ℚ
  i_dE_squared_average : ℚ
  i_marker_den : ℚ
  e_dr_average : ℚ
  e_dr_squared_average : ℚ
  e_dE_average : ℚ
  e_dE_squared_average : ℚ
  e_marker_den : ℚ
deriving DecidableEq, Repr

/-- A published block of the step: its decoded rows. -/
abbrev Block := List Row

/-- The ten EntityBin sequences of the `Diffusion` object, each modelled as a
map from entity (triangle) id to its accumulated value. -/
structure EntityBins where
  i_dr_avg : Nat → ℚ
  i_dr_squared_average : Nat → ℚ
  i_dE_avg : Nat → ℚ
  i_dE_squared_average : Nat → ℚ
  i_marker_den : Nat → ℚ
  e_dr_avg : Nat → ℚ
  e_dr_squared_average : Nat → ℚ
  e_dE_avg : Nat → ℚ
  e_dE_squared_average : Nat → ℚ
  e_marker_den : Nat → ℚ

/-- All ten bins zero. -/
def zeroBins : EntityBins :=
  ⟨fun _ => 0, fun _ => 0, fun _ => 0, fun _ => 0, fun _ => 0,
   fun _ => 0, fun _ => 0, fun _ => 0, fun _ => 0, fun _ => 0⟩

/-- `Diffusion::reset`: resize every bin to `ntriangle` and fill each with
`0.0`, discarding whatever the bins held before. -/
def Diffusion.reset (_prior : EntityBins) : EntityBins := zeroBins

/-- The body of the row loop in `Diffusion::step`: add the ten decoded fields
of one row into the bin slots of the row's leading entity id `itri`. -/
def accumRow (b : EntityBins) (row : Row) : EntityBins where
  i_dr_avg := Function.update b.i_dr_avg row.itri (b.i_dr_avg row.itri + row.i_dr_average)
  i_dr_squared_average :=
    Function.update b.i_dr_squared_average row.itri
      (b.i_dr_squared_average row.itri + row.i_dr_squared_average)
  i_dE_avg := Function.update b.i_dE_avg row.itri (b.i_dE_avg row.itri + row.i_dE_average)
  i_dE_squared_average :=
    Function.update b.i_dE_squared_average row.itri
      (b.i_dE_squared_average row.itri + row.i_dE_squared_average)
  i_marker_den :=
    Function.update b.i_marker_den row.itri (b.i_marker_den row.itri + row.i_marker_den)
  e_dr_avg := Function.update b.e_dr_avg row.itri (b.e_dr_avg row.itri + row.e_dr_average)
  e_dr_squared_average :=
    Function.update b.e_dr_squared_average row.itri
      (b.e_dr_squared_average row.itri + row.e_dr_squared_average)
  e_dE_avg := Function.update b.e_dE_avg row.itri (b.e_dE_avg row.itri + row.e_dE_average)
  e_dE_squared_average :=
    Function.update b.e_dE_squared_average row.itri
      (b.e_dE_squared_average row.itri + row.e_dE_squared_average)
  e_marker_den :=
    Function.update b.e_marker_den row.itri (b.e_marker_den row.itri + row.e_marker_den)

/-- Consume one block: fold the row loop over its rows. -/
def accumBlock (b : EntityBins) (rows : Block) : EntityBins :=
  rows.foldl accumRow b

/-- Consume a list of blocks in order (the block loop of `Diffusion::step`). -/
def accumBlocks (b : EntityBins) (blocks : List Block) : EntityBins :=
  blocks.foldl accumBlock b

/-- The sub-list of blocks a rank iterates over: indices
`offset ≤ i < offset + nblock` with `(offset, nblock) = split_vector …`. -/
def sliceBlocks (blocks : List Block) (W r : Nat) : List Block :=
  let s := split_vector blocks.length W r
  (blocks.drop s.1).take s.2

/-- `Diffusion::vec_reduce`: the collective `MPI_Reduce(…, MPI_SUM, 0, comm)`
on one sequence; the coordinator's sequence becomes the element-wise sum of
every rank's contribution. -/
def vec_reduce (contribs : List (Nat → ℚ)) : Nat → ℚ :=
  fun t => (contribs.map (fun v => v t)).sum

/-- The bins rank `r` holds after the Ready branch's local work: reset to
zero, then accumulate the rows of the rank's block slice. -/
def Diffusion.localBins (blocks : List Block) (W r : Nat) (prior : EntityBins) : EntityBins :=
  accumBlocks (Diffusion.reset prior) (sliceBlocks blocks W r)

/-- The coordinator's bins after the ten `vec_reduce` calls: each sequence is
the element-wise sum of all `W` ranks' local sequences. -/
def Diffusion.reducedBins (blocks : List Block) (W : Nat) (prior : EntityBins) : EntityBins :=
  let locals := (List.range W).map (fun r => Diffusion.localBins blocks W r prior)
  { i_dr_avg := vec_reduce (locals.map (fun l => l.i_dr_avg))
    i_dr_squared_average := vec_reduce (locals.map (fun l => l.i_dr_squared_average))
    i_dE_avg := vec_reduce (locals.map (fun l => l.i_dE_avg))
    i_dE_squared_average := vec_reduce (locals.map (fun l => l.i_dE_squared_average))
    i_marker_den := vec_reduce (locals.map (fun l => l.i_marker_den))
    e_dr_avg := vec_reduce (locals.map (fun l => l.e_dr_avg))
    e_dr_squared_average := vec_reduce (locals.map (fun l => l.e_dr_squared_average))
    e_dE_avg := vec_reduce (locals.map (fun l => l.e_dE_avg))
    e_dE_squared_average := vec_reduce (locals.map (fun l => l.e_dE_squared_average))
    e_marker_den := vec_reduce (locals.map (fun l => l.e_marker_den)) }

/-- The coordinator-side state of the `Diffusion` object that `step` mutates. -/
structure DiffusionState where
  istep : Nat
  bins : EntityBins

/-- State after construction: `istep = 0`, bins reset. -/
def Diffusion.initState : DiffusionState := ⟨0, zeroBins⟩

/-- Observable effects of one `Diffusion::step` call, in program order. -/
inductive DiffEvent where
  | dupBeginStep
  | readerEndStep
  | dupEndStep
  | reduceCall
  | outputPersist
deriving DecidableEq, Repr

/-- One call of `Diffusion::step`, as the coordinator's state transition plus
its event trace.  `status` is what `reader.BeginStep()` returned, `blocks` the
decoded block list of the step, `W` the communicator size. -/
def Diffusion.step (W : Nat) (blocks : List Block) (status : StepStatus)
    (s : DiffusionState) : DiffusionState × List DiffEvent :=
  if status = StepStatus.ok then
    ({ istep := s.istep + 1, bins := Diffusion.reducedBins blocks W s.bins },
     [DiffEvent.dupBeginStep, DiffEvent.readerEndStep, DiffEvent.dupEndStep] ++
       List.replicate 10 DiffEvent.reduceCall ++ [DiffEvent.outputPersist])
  else
    (s, [DiffEvent.dupBeginStep])

/-- Iterated `Diffusion::step` calls (the pipeline driver loop). -/
def Diffusion.run (W : Nat) (steps : List (StepStatus × List Block))
    (s : DiffusionState) : DiffusionState :=
  steps.foldl (fun st p => (Diffusion.step W p.2 p.1 st).1) s

/-- The total contribution of a list of rows to bin slot `e` under the field
selector `f`: the sum of `f` over exactly the rows whose leading entity id
is `e`. -/
def rowFieldSum (f : Row → ℚ) (e : Nat) (rows : List Row) : ℚ :=
  ((rows.filter (fun row => row.itri = e)).map f).sum

/-- The row loop of `Diffusion::step` viewed through a single bin sequence. -/
def accumField (g : Nat → ℚ) (f : Row → ℚ) (rows : List Row) : Nat → ℚ :=
  rows.foldl (fun g row => Function.update g row.itri (g row.itri + f row)) g

/-- The ten bin sequences, all sampled at entity id `e`. -/
def binsAt (b : EntityBins) (e : Nat) : List ℚ :=
  [b.i_dr_avg e, b.i_dr_squared_average e, b.i_dE_avg e, b.i_dE_squared_average e,
   b.i_marker_den e, b.e_dr_avg e, b.e_dr_squared_average e, b.e_dE_avg e,
   b.e_dE_squared_average e, b.e_marker_den e]

/-- The ten per-row fields of the step's rows, summed grouped by entity id `e`. -/
def rowSumsAt (blocks : List Block) (e : Nat) : List ℚ :=
  [rowFieldSum Row.i_dr_average e blocks.flatten,
   rowFieldSum Row.i_dr_squared_average e blocks.flatten,
   rowFieldSum Row.i_dE_average e blocks.flatten,
   rowFieldSum Row.i_dE_squared_average e blocks.flatten,
   rowFieldSum Row.i_marker_den e blocks.flatten,
   rowFieldSum Row.e_dr_average e blocks.flatten,
   rowFieldSum Row.e_dr_squared_average e blocks.flatten,
   rowFieldSum Row.e_dE_average e blocks.flatten,
   rowFieldSum Row.e_dE_squared_average e blocks.flatten,
   rowFieldSum Row.e_marker_den e blocks.flatten]

/-- A concrete two-block input with overlapping entity ids for the C1 witness. -/
def wBlocks : List Block :=
  [[⟨0, 1, 2, 3, 4, 5, 6, 7, 8, 9, 10⟩, ⟨1, 1, 1, 1, 1, 1, 1, 1, 1, 1, 1⟩],
   [⟨0, 2, 2, 2, 2, 2, 2, 2, 2, 2, 2⟩]]

/-- Observable effects of `Diffusion::output` (the StepSink). -/
inductive SinkEvent where
  | defineVariable (name : String)
  | beginStep
  | put (name : String)
  | endStep
deriving DecidableEq, Repr

/-- The ten persisted sequence names, in declaration and write order. -/
def outputFieldNames : List String :=
  ["i_dr_avg", "i_dr_squared_average", "i_dE_avg", "i_dE_squared_average", "i_marker_den",
   "e_dr_avg", "e_dr_squared_average", "e_dE_avg", "e_dE_squared_average", "e_marker_den"]

/-- The body every `Diffusion::output` invocation performs: open a persistence
step, write all ten sequences, close the step. -/
def writeEvents : List SinkEvent :=
  [SinkEvent.beginStep] ++ outputFieldNames.map SinkEvent.put ++ [SinkEvent.endStep]

/-- One call of `Diffusion::output`.  The boolean is the function-static
`first` flag guarding the lazy layout declaration. -/
def Diffusion.output (first : Bool) : Bool × List SinkEvent :=
  if first then
    (false, outputFieldNames.map SinkEvent.defineVariable ++ writeEvents)
  else
    (false, writeEvents)

/-- Concatenated trace of `n` consecutive `Diffusion::output` invocations. -/
def Diffusion.outputRun : Nat → Bool → List SinkEvent
  | 0, _ => []
  | n + 1, first =>
    (Diffusion.output first).2 ++ Diffusion.outputRun n (Diffusion.output first).1

/-- One reconstructed particle record (`struct Particle` of the heatload
pipeline): identity, raw flag, step of escape, the eleven phase components in
the order the reconstruction loop reads them, and the energy-loss scalar. -/
structure Particle where
  gid : Int
  flag : Int
  esc_step : Int
  r : ℚ
  z : ℚ
  phi : ℚ
  rho : ℚ
  w1 : ℚ
  w2 : ℚ
  mu : ℚ
  w0 : ℚ
  f0 : ℚ
  psi : ℚ
  B : ℚ
  dw : ℚ
deriving DecidableEq, Repr

/-- One species' flat per-rank column arrays after the local block loop of
`Heatload::step` (`igid`/`iflag`/`istep`/`idw`/`iphase`, or the electron
versions): five sequences aligned by record index, the phase array
`NPHASE = 11` wide per record. -/
structure SpeciesLocal where
  gid : List Int
  flag : List Int
  esc_step : List Int
  dw : List ℚ
  phase : List ℚ
deriving DecidableEq, Repr

/-- The index-alignment invariant of the five column arrays of one rank. -/
def alignedLocal (x : SpeciesLocal) : Prop :=
  x.flag.length = x.gid.length ∧ x.esc_step.length = x.gid.length ∧
  x.dw.length = x.gid.length ∧ x.phase.length = x.gid.length * 11

instance (x : SpeciesLocal) : Decidable (alignedLocal x) := by
  unfold alignedLocal; infer_instance

/-- The displacement-table loop of `Heatload::step`: `displacement_list[i]` is
the running total `ntotal` accumulated before `len_list[i]` is added. -/
def displacementsGo (ntotal : Nat) : List Nat → List Nat
  | [] => []
  | n :: rest => ntotal :: displacementsGo (ntotal + n) rest

/-- Displacement table: prefix sums of the gathered length table. -/
def displacements (lens : List Nat) : List Nat := displacementsGo 0 lens

/-- Write `seg` into `buf` starting at offset `off`: the effect of one rank's
contribution inside `MPI_Gatherv`. -/
def writeSeg {α : Type} (buf : List α) (off : Nat) (seg : List α) : List α :=
  buf.take off ++ seg ++ buf.drop (off + seg.length)

/-- `MPI_Gatherv` destination-buffer semantics: each rank's first `len`
elements are written at that rank's displacement. -/
def gathervGo {α : Type} : List (List α) → List Nat → List Nat → List α → List α
  | data :: ds, n :: ns, o :: os, buf => gathervGo ds ns os (writeSeg buf o (data.take n))
  | _, _, _, buf => buf

/-- `MPI_Gatherv` into a fresh destination buffer of size `total`. -/
def gatherv {α : Type} (d : α) (datas : List (List α)) (lens displs : List Nat)
    (total : Nat) : List α :=
  gathervGo datas lens displs (List.replicate total d)

/-- The record-reconstruction loop of `Heatload::step`: one `Particle` per
index `k`, scalar fields read at position `k` of each column array and phase
components at `k * NPHASE + j` of the phase array. -/
def reconstruct (gid flag esc : List Int) (dw phase : List ℚ) : List Particle :=
  (List.range gid.length).map fun k =>
    { gid := gid.getD k 0
      flag := flag.getD k 0
      esc_step := esc.getD k 0
      r := phase.getD (k * 11 + 0) 0
      z := phase.getD (k * 11 + 1) 0
      phi := phase.getD (k * 11 + 2) 0
      rho := phase.getD (k * 11 + 3) 0
      w1 := phase.getD (k * 11 + 4) 0
      w2 := phase.getD (k * 11 + 5) 0
      mu := phase.getD (k * 11 + 6) 0
      w0 := phase.getD (k * 11 + 7) 0
      f0 := phase.getD (k * 11 + 8) 0
      psi := phase.getD (k * 11 + 9) 0
      B := phase.getD (k * 11 + 10) 0
      dw := dw.getD k 0 }

/-- The per-species consolidation of `Heatload::step`: all-gather of the
per-rank record counts, displacement table by prefix sum, `MPI_Gatherv` of
the four scalar columns with that table, then length scaling by `NPHASE = 11`
with recomputed displacements for the phase column, and finally the
coordinator's reconstruction of the gathered records. -/
def Heatload.gatherSpecies (ranks : List SpeciesLocal) : List Particle :=
  let len_list := ranks.map (fun x => x.gid.length)
  let displacement_list := displacements len_list
  let ntotal := len_list.sum
  let gid_total := gatherv 0 (ranks.map (fun x => x.gid)) len_list displacement_list ntotal
  let flag_total := gatherv 0 (ranks.map (fun x => x.flag)) len_list displacement_list ntotal
  let esc_total := gatherv 0 (ranks.map (fun x => x.esc_step)) len_list displacement_list ntotal
  let dw_total := gatherv 0 (ranks.map (fun x => x.dw)) len_list displacement_list ntotal
  let len_list2 := len_list.map (fun n => n * 11)
  let displacement_list2 := displacements len_list2
  let phase_total :=
    gatherv 0 (ranks.map (fun x => x.phase)) len_list2 displacement_list2 (ntotal * 11)
  reconstruct gid_total flag_total esc_total dw_total phase_total

/-- The escaped-set candidates a processed batch proposes: the records whose
decoded escape bit is set (`if (fl.escaped) add(iesc, iptl)`).  `esc` is the
external `Flags` bit decoder, an out-of-scope collaborator. -/
def Heatload.escCandidates (esc : Int → Bool) (ptls : List Particle) : List Particle :=
  ptls.filter (fun p => esc p.flag)

/-- The confined (divertor) list built from a processed batch: the records
whose decoded escape bit is clear (`if (!fl.escaped) idiv.push_back(iptl)`). -/
def Heatload.divList (esc : Int → Bool) (ptls : List Particle) : List Particle :=
  ptls.filter (fun p => !esc p.flag)

/-- One `MPI_Gatherv` call of `Heatload::step` together with the contents of
the shared `len_list` and `displacement_list` buffers at the moment of the
call. -/
structure GatherCall where
  var : String
  len_list : List Nat
  displacement_list : List Nat
deriving DecidableEq, Repr

/-- The sequence of `MPI_Gatherv` calls one Ready `Heatload::step` issues, in
program order, reusing one `len_list` buffer and one `displacement_list`
buffer throughout: ion scalars, ion phase after in-place scaling by 11, then
— after the second `MPI_Allgather` overwrites the length buffer — electron
scalars and electron phase.  `ilens`/`elens` are the two allgather results
(per-rank ion and electron record counts). -/
def Heatload.gatherSchedule (ilens elens : List Nat) : List GatherCall :=
  let len_list := ilens
  let displacement_list := displacements len_list
  let ion_scalars :=
    [GatherCall.mk "igid" len_list displacement_list,
     GatherCall.mk "iflag" len_list displacement_list,
     GatherCall.mk "istep" len_list displacement_list,
     GatherCall.mk "idw" len_list displacement_list]
  let len_list := len_list.map (fun n => n * 11)
  let displacement_list := displacements len_list
  let ion_phase := [GatherCall.mk "iphase" len_list displacement_list]
  let len_list := elens
  let displacement_list := displacements len_list
  let elec_scalars :=
    [GatherCall.mk "egid" len_list displacement_list,
     GatherCall.mk "eflag" len_list displacement_list,
     GatherCall.mk "estep" len_list displacement_list,
     GatherCall.mk "edw" len_list displacement_list]
  let len_list := len_list.map (fun n => n * 11)
  let displacement_list := displacements len_list
  let elec_phase := [GatherCall.mk "ephase" len_list displacement_list]
  ion_scalars ++ ion_phase ++ elec_scalars ++ elec_phase

/-- The members of the `Heatload` object that `step` mutates: the step
counter and the two per-species step histories of escaped sets. -/
structure HeatloadState where
  istep : Nat
  iesc_db : List (List Particle)
  eesc_db : List (List Particle)
deriving DecidableEq, Repr

/-- State after construction: `istep = 0`, empty histories. -/
def Heatload.initState : HeatloadState := ⟨0, [], []⟩

/-- The state effect of one `Heatload::step` call: on a Ready status the two
per-step escaped sets are appended to the histories and the step counter
advances; any other status leaves the state untouched. -/
def Heatload.stepState (status : StepStatus) (iesc eesc : List Particle)
    (s : HeatloadState) : HeatloadState :=
  if status = StepStatus.ok then
    { istep := s.istep + 1, iesc_db := s.iesc_db ++ [iesc], eesc_db := s.eesc_db ++ [eesc] }
  else s

/-- Iterated `Heatload::step` calls (the pipeline driver loop). -/
def Heatload.run (steps : List (StepStatus × List Particle × List Particle))
    (s : HeatloadState) : HeatloadState :=
  steps.foldl (fun st p => Heatload.stepState p.1 p.2.1 p.2.2 st) s

/-- A particle with the given id and flag, all numeric fields zero (witness
data). -/
def wPtl (g fl : Int) : Particle :=
  ⟨g, fl, 0, 0, 0, 0, 0, 0, 0, 0, 0, 0, 0, 0, 0⟩

/-- A synthetic mixed batch: four escaped (flag 1) and six confined (flag 0)
records (witness data for the escape classification). -/
def wBatch : List Particle :=
  [wPtl 1 1, wPtl 2 1, wPtl 3 1, wPtl 4 1, wPtl 5 0,
   wPtl 6 0, wPtl 7 0, wPtl 8 0, wPtl 9 0, wPtl 10 0]

/-- Concrete escape-bit decoder for witnesses: bit set iff flag equals 1. -/
def wEsc : Int → Bool := fun fl => decide (fl = 1)

/-- Three ranks with record counts 0, 3 and 5 (witness data for the gather
round-trip; the spec's own example). -/
def wRanks : List SpeciesLocal :=
  [⟨[], [], [], [], []⟩,
   ⟨[1, 2, 3], [0, 1, 0], [7, 7, 7], [1/2, 1, 2], List.replicate 33 (1/3)⟩,
   ⟨[4, 5, 6, 7, 8], [1, 0, 1, 0, 1], [9, 9, 9, 9, 9], [1, 2, 3, 4, 5],
    List.replicate 55 (2/5)⟩]

/-! The theorems.  Claims C1–C10 of the design review are settled below;
auxiliary lemmas come first, the claim-level theorems carry the claim id in
their doc comment. -/

theorem split_vector_zero (B W : Nat) : (split_vector B W 0).1 = 0 := by
  simp [split_vector]

theorem split_vector_contiguous (B W r : Nat) :
    (split_vector B W (r + 1)).1 = (split_vector B W r).1 + (split_vector B W r).2 := by
  simp only [split_vector]
  rcases Nat.lt_or_ge r (B % W) with h | h
  · have h1 : min (r + 1) (B % W) = r + 1 := Nat.min_eq_left h
    have h2 : min r (B % W) = r := Nat.min_eq_left (Nat.le_of_lt h)
    simp [h1, h2, h]
    ring
  · have h1 : min (r + 1) (B % W) = B % W := Nat.min_eq_right (Nat.le_succ_of_le h)
    have h2 : min r (B % W) = B % W := Nat.min_eq_right h
    have h3 : ¬ r < B % W := Nat.not_lt.mpr h
    simp [h1, h2, h3]
    ring

theorem split_vector_end (B W : Nat) (hW : 1 ≤ W) : (split_vector B W W).1 = B := by
  simp only [split_vector]
  have hm : B % W < W := Nat.mod_lt _ hW
  rw [Nat.min_eq_right (Nat.le_of_lt hm)]
  exact Nat.div_add_mod B W

theorem split_vector_total (B W : Nat) (hW : 1 ≤ W) :
    (split_vector B W (W - 1)).1 + (split_vector B W (W - 1)).2 = B := by
  have hw : W - 1 + 1 = W := Nat.succ_pred_eq_of_pos hW
  have h := split_vector_contiguous B W (W - 1)
  rw [hw] at h
  rw [← h]
  exact split_vector_end B W hW

theorem split_vector_monotone (B W : Nat) : ∀ r₁ r₂, r₁ < r₂ →
    (split_vector B W r₁).1 + (split_vector B W r₁).2 ≤ (split_vector B W r₂).1 := by
  intro r₁ r₂ h
  induction r₂ with
  | zero => omega
  | succ n ih =>
    rcases Nat.lt_or_ge r₁ n with h1 | h1
    · have := ih h1
      have h2 := split_vector_contiguous B W n
      omega
    · have : r₁ = n := by omega
      subst this
      exact Nat.le_of_eq (split_vector_contiguous B W r₁).symm

theorem split_vector_cover (B W : Nat) (hW : 1 ≤ W) :
    ∀ i, i < B → ∃ r, r < W ∧ (split_vector B W r).1 ≤ i ∧
      i < (split_vector B W r).1 + (split_vector B W r).2 := by
  have key : ∀ k i, i < (split_vector B W k).1 → ∃ r, r < k ∧
      (split_vector B W r).1 ≤ i ∧ i < (split_vector B W r).1 + (split_vector B W r).2 := by
    intro k
    induction k with
    | zero => intro i hi; simp [split_vector] at hi
    | succ n ih =>
      intro i hi
      rcases Nat.lt_or_ge i (split_vector B W n).1 with h | h
      · obtain ⟨r, hr, h1, h2⟩ := ih i h
        exact ⟨r, Nat.lt_succ_of_lt hr, h1, h2⟩
      · refine ⟨n, Nat.lt_succ_self n, h, ?_⟩
        rw [split_vector_contiguous B W n] at hi
        exact hi
  intro i hi
  exact key W i (by rw [split_vector_end B W hW]; exact hi)

/-- C2: for every block count `B` and worker count `W ≥ 1`, the
`(offset, count)` ranges produced by the block partitioner for ranks
`0..W-1` are contiguous, non-overlapping, gap-free, and cover exactly
`[0, B)`; lengths differ by at most one, remainder blocks go to the earliest
ranks, and `B < W` yields empty higher ranges rather than an error. -/
theorem split_vector_partition (B W : Nat) (hW : 1 ≤ W) : splitContract B W := by
  refine ⟨split_vector_zero B W, fun r => split_vector_contiguous B W r,
    split_vector_total B W hW, split_vector_cover B W hW,
    split_vector_monotone B W, ?_, ?_, ?_, ?_⟩
  · intro r₁ r₂
    simp only [split_vector]
    split_ifs <;> omega
  · intro r hr
    simp [split_vector, hr]
  · intro r hr
    simp [split_vector, Nat.not_lt.mpr hr]
  · intro hBW r hr
    have hq : B / W = 0 := Nat.div_eq_of_lt hBW
    have hm : B % W = B := Nat.mod_eq_of_lt hBW
    simp [split_vector, hq, hm, Nat.not_lt.mpr hr]

/-- Witness for C2 at the spec's own example `B = 10`, `W = 3`. -/
theorem split_vector_partition_witness : 1 ≤ 3 ∧ splitContract 10 3 :=
  ⟨by decide, split_vector_partition 10 3 (by decide)⟩

theorem rowFieldSum_append (f : Row → ℚ) (e : Nat) (xs ys : List Row) :
    rowFieldSum f e (xs ++ ys) = rowFieldSum f e xs + rowFieldSum f e ys := by
  simp [rowFieldSum, List.filter_append]

theorem rowFieldSum_flatten (f : Row → ℚ) (e : Nat) (S : List (List Row)) :
    (S.map (rowFieldSum f e)).sum = rowFieldSum f e S.flatten := by
  induction S with
  | nil => simp [rowFieldSum]
  | cons xs rest ih => simp [rowFieldSum_append, ih]

theorem accumField_append (g : Nat → ℚ) (f : Row → ℚ) (xs ys : List Row) :
    accumField g f (xs ++ ys) = accumField (accumField g f xs) f ys :=
  List.foldl_append ..

/-- Evaluating the single-field row loop: slot `e` receives its prior value
plus the sum of the field over the rows keyed by `e` — rows with the same
entity id accumulate rather than overwrite. -/
theorem accumField_apply (g : Nat → ℚ) (f : Row → ℚ) (rows : List Row) (e : Nat) :
    accumField g f rows e = g e + rowFieldSum f e rows := by
  induction rows generalizing g with
  | nil => simp [accumField, rowFieldSum]
  | cons row rest ih =>
    show accumField (Function.update g row.itri (g row.itri + f row)) f rest e = _
    rw [ih]
    by_cases h : row.itri = e
    · subst h
      simp [rowFieldSum, List.filter_cons, Function.update_same, add_assoc]
    · simp [rowFieldSum, List.filter_cons, h, Function.update_apply, Ne.symm h]

/-- Any single bin sequence of the block loop is the single-field row loop
over the flattened rows of the blocks. -/
theorem accumBlocks_proj (pb : EntityBins → Nat → ℚ) (pf : Row → ℚ)
    (hproj : ∀ b row, pb (accumRow b row) =
      Function.update (pb b) row.itri (pb b row.itri + pf row)) :
    ∀ (blocks : List Block) (b : EntityBins),
      pb (accumBlocks b blocks) = accumField (pb b) pf blocks.flatten := by
  have hblock : ∀ (rows : Block) (b : EntityBins),
      pb (accumBlock b rows) = accumField (pb b) pf rows := by
    intro rows
    induction rows with
    | nil => intro b; rfl
    | cons row rest ih =>
      intro b
      show pb (accumBlock (accumRow b row) rest) = _
      rw [ih (accumRow b row), hproj]
      rfl
  intro blocks
  induction blocks with
  | nil => intro b; rfl
  | cons bs rest ih =>
    intro b
    show pb (accumBlocks (accumBlock b bs) rest) = _
    rw [ih, hblock, List.flatten_cons, accumField_append]

/-- The per-rank block slices concatenate, in rank order, to the whole block
list: no block is dropped, duplicated, or reordered. -/
theorem slices_flatten (blocks : List Block) (W : Nat) (hW : 1 ≤ W) :
    ((List.range W).map (sliceBlocks blocks W)).flatten = blocks := by
  have aux : ∀ k, ((List.range k).map (sliceBlocks blocks W)).flatten =
      blocks.take ((split_vector blocks.length W k).1) := by
    intro k
    induction k with
    | zero => simp [split_vector_zero]
    | succ n ih =>
      rw [List.range_succ]
      simp only [List.map_append, List.map_cons, List.map_nil, List.flatten_append,
        List.flatten_cons, List.flatten_nil, List.append_nil]
      rw [ih, split_vector_contiguous, List.take_add]
      rfl
  rw [aux W, split_vector_end blocks.length W hW, List.take_length]

theorem flatten_map_flatten (M : List (List (List Row))) :
    (M.map List.flatten).flatten = M.flatten.flatten := by
  induction M with
  | nil => rfl
  | cons x rest ih => simp [ih]

/-- Generic form of C1, one bin sequence at a time: after the Ready branch's
local accumulation and the sum-reduction, the coordinator's sequence holds at
slot `e` the sum of the corresponding field over all rows of all blocks of
the step whose leading entity id is `e`. -/
theorem reduced_field_sum (pb : EntityBins → Nat → ℚ) (pf : Row → ℚ)
    (hproj : ∀ b row, pb (accumRow b row) =
      Function.update (pb b) row.itri (pb b row.itri + pf row))
    (hzero : pb zeroBins = fun _ => 0)
    (hred : ∀ blocks W prior, pb (Diffusion.reducedBins blocks W prior) =
      vec_reduce (((List.range W).map (fun r => Diffusion.localBins blocks W r prior)).map pb))
    (blocks : List Block) (W : Nat) (hW : 1 ≤ W) (prior : EntityBins) (e : Nat) :
    pb (Diffusion.reducedBins blocks W prior) e = rowFieldSum pf e blocks.flatten := by
  rw [hred]
  have hlocal : ∀ r, pb (Diffusion.localBins blocks W r prior) e =
      rowFieldSum pf e (sliceBlocks blocks W r).flatten := by
    intro r
    unfold Diffusion.localBins
    rw [accumBlocks_proj pb pf hproj, accumField_apply,
      show Diffusion.reset prior = zeroBins from rfl, hzero]
    simp
  unfold vec_reduce
  have hmaps : ((((List.range W).map (fun r => Diffusion.localBins blocks W r prior)).map pb).map
        (fun v => v e))
      = (List.range W).map (fun r => rowFieldSum pf e (sliceBlocks blocks W r).flatten) := by
    rw [List.map_map, List.map_map]
    exact List.map_congr_left (fun r _ => hlocal r)
  rw [hmaps]
  have hmm : (List.range W).map (fun r => rowFieldSum pf e (sliceBlocks blocks W r).flatten)
      = (((List.range W).map (sliceBlocks blocks W)).map List.flatten).map (rowFieldSum pf e) := by
    simp [List.map_map, Function.comp]
  rw [hmm, rowFieldSum_flatten, flatten_map_flatten, slices_flatten blocks W hW]

/-- C1: after a Ready step's local accumulation and collective sum-reduction,
each of the coordinator's ten EntityBin sequences holds, at entity id `e`,
the sum over all blocks of the step and all their rows keyed by `e` of the
corresponding per-row field; same-id rows accumulate rather than
overwrite. -/
theorem diffusion_step_bins_sum (W : Nat) (blocks : List Block) (s : DiffusionState)
    (e : Nat) (hW : 1 ≤ W) :
    binsAt ((Diffusion.step W blocks StepStatus.ok s).1.bins) e = rowSumsAt blocks e := by
  have hstep : (Diffusion.step W blocks StepStatus.ok s).1.bins =
      Diffusion.reducedBins blocks W s.bins := by
    simp [Diffusion.step]
  have h1 := reduced_field_sum (fun b => b.i_dr_avg) Row.i_dr_average
    (fun _ _ => rfl) rfl (fun _ _ _ => rfl) blocks W hW s.bins e
  have h2 := reduced_field_sum (fun b => b.i_dr_squared_average) Row.i_dr_squared_average
    (fun _ _ => rfl) rfl (fun _ _ _ => rfl) blocks W hW s.bins e
  have h3 := reduced_field_sum (fun b => b.i_dE_avg) Row.i_dE_average
    (fun _ _ => rfl) rfl (fun _ _ _ => rfl) blocks W hW s.bins e
  have h4 := reduced_field_sum (fun b => b.i_dE_squared_average) Row.i_dE_squared_average
    (fun _ _ => rfl) rfl (fun _ _ _ => rfl) blocks W hW s.bins e
  have h5 := reduced_field_sum (fun b => b.i_marker_den) Row.i_marker_den
    (fun _ _ => rfl) rfl (fun _ _ _ => rfl) blocks W hW s.bins e
  have h6 := reduced_field_sum (fun b => b.e_dr_avg) Row.e_dr_average
    (fun _ _ => rfl) rfl (fun _ _ _ => rfl) blocks W hW s.bins e
  have h7 := reduced_field_sum (fun b => b.e_dr_squared_average) Row.e_dr_squared_average
    (fun _ _ => rfl) rfl (fun _ _ _ => rfl) blocks W hW s.bins e
  have h8 := reduced_field_sum (fun b => b.e_dE_avg) Row.e_dE_average
    (fun _ _ => rfl) rfl (fun _ _ _ => rfl) blocks W hW s.bins e
  have h9 := reduced_field_sum (fun b => b.e_dE_squared_average) Row.e_dE_squared_average
    (fun _ _ => rfl) rfl (fun _ _ _ => rfl) blocks W hW s.bins e
  have h10 := reduced_field_sum (fun b => b.e_marker_den) Row.e_marker_den
    (fun _ _ => rfl) rfl (fun _ _ _ => rfl) blocks W hW s.bins e
  rw [hstep]
  simp only [binsAt, rowSumsAt, h1, h2, h3, h4, h5, h6, h7, h8, h9, h10]

/-- Witness for C1: two blocks across two workers, with both blocks
contributing rows for entity id 0. -/
theorem diffusion_step_bins_sum_witness :
    1 ≤ 2 ∧ binsAt ((Diffusion.step 2 wBlocks StepStatus.ok Diffusion.initState).1.bins) 0 =
      rowSumsAt wBlocks 0 :=
  ⟨by decide, diffusion_step_bins_sum 2 wBlocks Diffusion.initState 0 (by decide)⟩

/-- C4: a NotReady return from `beginStep` leaves the whole state — all bins
and the step counter — unchanged, performs no reduction collective, and
persists no output. -/
theorem diffusion_notReady_frame (W : Nat) (blocks : List Block) (s : DiffusionState) :
    (Diffusion.step W blocks StepStatus.notReady s).1 = s ∧
    (Diffusion.step W blocks StepStatus.notReady s).1.istep = s.istep ∧
    (Diffusion.step W blocks StepStatus.notReady s).1.bins = s.bins ∧
    DiffEvent.reduceCall ∉ (Diffusion.step W blocks StepStatus.notReady s).2 ∧
    DiffEvent.outputPersist ∉ (Diffusion.step W blocks StepStatus.notReady s).2 := by
  refine ⟨rfl, rfl, rfl, ?_, ?_⟩ <;> simp [Diffusion.step]

/-- C6: two consecutive Ready steps on identical input give identical
EntityBin output: the reset at the start of the Ready branch erases any
dependence on the prior step's bins, so nothing carries over. -/
theorem diffusion_reset_idempotent (W : Nat) (blocks : List Block) (s s' : DiffusionState) :
    ((Diffusion.step W blocks StepStatus.ok
        ((Diffusion.step W blocks StepStatus.ok s).1)).1).bins =
      ((Diffusion.step W blocks StepStatus.ok s).1).bins ∧
    ((Diffusion.step W blocks StepStatus.ok s).1).bins =
      ((Diffusion.step W blocks StepStatus.ok s').1).bins :=
  ⟨rfl, rfl⟩

/-- C9: every `Diffusion::step` call begins a step on the duplicate-stream
writer before the upstream status is examined (it is the first effect of the
trace for every status), but ends it only on the Ready path: NotReady, Ended
and error outcomes leave the duplicate stream with a begun-but-never-ended
step. -/
theorem diffusion_dup_stream (W : Nat) (blocks : List Block) (s : DiffusionState) :
    (∀ st, (Diffusion.step W blocks st s).2.head? = some DiffEvent.dupBeginStep) ∧
    DiffEvent.dupEndStep ∉ (Diffusion.step W blocks StepStatus.notReady s).2 ∧
    DiffEvent.dupEndStep ∉ (Diffusion.step W blocks StepStatus.endOfStream s).2 ∧
    DiffEvent.dupEndStep ∉ (Diffusion.step W blocks StepStatus.otherError s).2 ∧
    DiffEvent.dupEndStep ∈ (Diffusion.step W blocks StepStatus.ok s).2 := by
  refine ⟨fun st => ?_, ?_, ?_, ?_, ?_⟩
  · cases st <;> rfl
  all_goals simp [Diffusion.step]

theorem outputRun_false (n : Nat) :
    Diffusion.outputRun n false = (List.replicate n writeEvents).flatten := by
  induction n with
  | zero => rfl
  | succ n ih => simp [Diffusion.outputRun, Diffusion.output, ih, List.replicate_succ]

/-- C7: over any positive number of invocations starting from a fresh
`first = true` flag, the sink trace is the ten layout declarations — emitted
exactly once, by the first invocation — followed by one
begin-step/ten-writes/end-step block per invocation; since the declarations
sit at the very front and never recur, no write precedes the layout
declaration. -/
theorem diffusion_output_layout (n : Nat) :
    Diffusion.outputRun (n + 1) true =
      outputFieldNames.map SinkEvent.defineVariable ++
        (List.replicate (n + 1) writeEvents).flatten ∧
    (∀ name, SinkEvent.defineVariable name ∉ (List.replicate (n + 1) writeEvents).flatten) := by
  constructor
  · simp [Diffusion.outputRun, Diffusion.output, outputRun_false, List.replicate_succ]
  · intro name
    simp only [List.mem_flatten]
    rintro ⟨l, hl, hmem⟩
    rw [List.eq_of_mem_replicate hl] at hmem
    simp [writeEvents, outputFieldNames] at hmem

theorem diffusion_run_istep (W : Nat) (steps : List (StepStatus × List Block)) :
    ∀ s, (Diffusion.run W steps s).istep =
      s.istep + (steps.map Prod.fst).count StepStatus.ok := by
  induction steps with
  | nil => intro s; simp [Diffusion.run]
  | cons p rest ih =>
    intro s
    show (Diffusion.run W rest ((Diffusion.step W p.2 p.1 s).1)).istep = _
    rw [ih]
    rcases p with ⟨st, blocks⟩
    cases st <;> simp [Diffusion.step, List.count_cons] <;> omega

theorem heatload_run_istep (steps : List (StepStatus × List Particle × List Particle)) :
    ∀ s, (Heatload.run steps s).istep =
      s.istep + (steps.map Prod.fst).count StepStatus.ok := by
  induction steps with
  | nil => intro s; simp [Heatload.run]
  | cons p rest ih =>
    intro s
    show (Heatload.run rest (Heatload.stepState p.1 p.2.1 p.2.2 s)).istep = _
    rw [ih]
    rcases p with ⟨st, rest'⟩
    cases st <;> simp [Heatload.stepState, List.count_cons] <;> omega

/-- C8: the step counter starts at zero and is monotonically non-decreasing
in both pipelines: exactly one increment per Ready step, no change on
NotReady or Ended outcomes, never a decrement — over any sequence of step
calls the final counter is the initial one plus the number of Ready steps. -/
theorem istep_monotone :
    Diffusion.initState.istep = 0 ∧ Heatload.initState.istep = 0 ∧
    (∀ W blocks s, ((Diffusion.step W blocks StepStatus.ok s).1).istep = s.istep + 1) ∧
    (∀ W blocks s, ((Diffusion.step W blocks StepStatus.notReady s).1).istep = s.istep) ∧
    (∀ W blocks s, ((Diffusion.step W blocks StepStatus.endOfStream s).1).istep = s.istep) ∧
    (∀ iesc eesc s, (Heatload.stepState StepStatus.ok iesc eesc s).istep = s.istep + 1) ∧
    (∀ iesc eesc s, (Heatload.stepState StepStatus.notReady iesc eesc s).istep = s.istep) ∧
    (∀ iesc eesc s, (Heatload.stepState StepStatus.endOfStream iesc eesc s).istep = s.istep) ∧
    (∀ W steps s, (Diffusion.run W steps s).istep =
      s.istep + (steps.map Prod.fst).count StepStatus.ok) ∧
    (∀ W steps s, s.istep ≤ (Diffusion.run W steps s).istep) ∧
    (∀ steps s, (Heatload.run steps s).istep =
      s.istep + (steps.map Prod.fst).count StepStatus.ok) ∧
    (∀ steps s, s.istep ≤ (Heatload.run steps s).istep) := by
  refine ⟨rfl, rfl, fun W blocks s => rfl, fun W blocks s => rfl, fun W blocks s => rfl,
    fun ie ee s => rfl, fun ie ee s => rfl, fun ie ee s => rfl,
    fun W steps s => diffusion_run_istep W steps s, fun W steps s => ?_,
    fun steps s => heatload_run_istep steps s, fun steps s => ?_⟩
  · rw [diffusion_run_istep W steps s]; omega
  · rw [heatload_run_istep steps s]; omega

theorem gathervGo_flatten {α : Type} :
    ∀ (datas : List (List α)) (front rest : List α),
      rest.length = (datas.map List.length).sum →
      gathervGo datas (datas.map List.length)
        (displacementsGo front.length (datas.map List.length)) (front ++ rest) =
      front ++ datas.flatten := by
  intro datas
  induction datas with
  | nil =>
    intro front rest h
    simp only [List.map_nil, List.sum_nil] at h
    have hrest : rest = [] := List.length_eq_zero.mp h
    subst hrest
    simp [gathervGo]
  | cons x ds ih =>
    intro front rest h
    show gathervGo ds (ds.map List.length) (displacementsGo (front.length + x.length)
        (ds.map List.length)) (writeSeg (front ++ rest) front.length (x.take x.length)) =
      front ++ (x :: ds).flatten
    have hbuf : writeSeg (front ++ rest) front.length (x.take x.length) =
        (front ++ x) ++ rest.drop x.length := by
      unfold writeSeg
      rw [List.take_length, List.take_left, List.drop_append]
    rw [hbuf]
    have hlen : (rest.drop x.length).length = (ds.map List.length).sum := by
      simp only [List.map_cons, List.sum_cons] at h
      simp only [List.length_drop]
      omega
    have hrec := ih (front ++ x) (rest.drop x.length) hlen
    rw [List.length_append] at hrec
    rw [hrec]
    simp [List.append_assoc]

/-- `MPI_Gatherv` with the exact length table and prefix-sum displacement
table of `Heatload::step` concatenates the per-rank contributions in
ascending rank order. -/
theorem gatherv_flatten {α : Type} (d : α) (datas : List (List α)) (lens : List Nat)
    (total : Nat) (hl : lens = datas.map List.length) (ht : total = lens.sum) :
    gatherv d datas lens (displacements lens) total = datas.flatten := by
  subst hl
  subst ht
  have h := gathervGo_flatten datas []
    (List.replicate (datas.map List.length).sum d) (by simp)
  simpa [gatherv, displacements] using h

theorem sum_map_mul11 (l : List Nat) : (l.map (fun n => n * 11)).sum = l.sum * 11 := by
  induction l with
  | nil => rfl
  | cons x xs ih => simp [ih, Nat.add_mul]

theorem getD_phase_left (p₁ p₂ : List ℚ) (n k j : Nat) (hp : p₁.length = n * 11)
    (hk : k < n) (hj : j < 11) :
    (p₁ ++ p₂).getD (k * 11 + j) 0 = p₁.getD (k * 11 + j) 0 :=
  List.getD_append _ _ _ _ (by omega)

theorem getD_phase_right (p₁ p₂ : List ℚ) (n k j : Nat) (hp : p₁.length = n * 11) :
    (p₁ ++ p₂).getD ((n + k) * 11 + j) 0 = p₂.getD (k * 11 + j) 0 := by
  rw [List.getD_append_right _ _ _ _ (by omega)]
  congr 1
  omega

/-- Reconstruction distributes over appending aligned column arrays: the
records of the first group come from the first group's columns only, those
of the second from the second's. -/
theorem reconstruct_append (g₁ f₁ s₁ : List Int) (d₁ p₁ : List ℚ)
    (g₂ f₂ s₂ : List Int) (d₂ p₂ : List ℚ)
    (hf : f₁.length = g₁.length) (hs : s₁.length = g₁.length)
    (hd : d₁.length = g₁.length) (hp : p₁.length = g₁.length * 11) :
    reconstruct (g₁ ++ g₂) (f₁ ++ f₂) (s₁ ++ s₂) (d₁ ++ d₂) (p₁ ++ p₂) =
      reconstruct g₁ f₁ s₁ d₁ p₁ ++ reconstruct g₂ f₂ s₂ d₂ p₂ := by
  unfold reconstruct
  rw [List.length_append, List.range_add, List.map_append, List.map_map]
  congr 1
  · apply List.map_congr_left
    intro k hk
    have hk' : k < g₁.length := List.mem_range.mp hk
    have e1 : (g₁ ++ g₂).getD k 0 = g₁.getD k 0 := List.getD_append _ _ _ _ hk'
    have e2 : (f₁ ++ f₂).getD k 0 = f₁.getD k 0 := List.getD_append _ _ _ _ (by omega)
    have e3 : (s₁ ++ s₂).getD k 0 = s₁.getD k 0 := List.getD_append _ _ _ _ (by omega)
    have e4 : (d₁ ++ d₂).getD k 0 = d₁.getD k 0 := List.getD_append _ _ _ _ (by omega)
    rw [e1, e2, e3, e4, getD_phase_left p₁ p₂ g₁.length k 0 hp hk' (by omega),
      getD_phase_left p₁ p₂ g₁.length k 1 hp hk' (by omega),
      getD_phase_left p₁ p₂ g₁.length k 2 hp hk' (by omega),
      getD_phase_left p₁ p₂ g₁.length k 3 hp hk' (by omega),
      getD_phase_left p₁ p₂ g₁.length k 4 hp hk' (by omega),
      getD_phase_left p₁ p₂ g₁.length k 5 hp hk' (by omega),
      getD_phase_left p₁ p₂ g₁.length k 6 hp hk' (by omega),
      getD_phase_left p₁ p₂ g₁.length k 7 hp hk' (by omega),
      getD_phase_left p₁ p₂ g₁.length k 8 hp hk' (by omega),
      getD_phase_left p₁ p₂ g₁.length k 9 hp hk' (by omega),
      getD_phase_left p₁ p₂ g₁.length k 10 hp hk' (by omega)]
  · apply List.map_congr_left
    intro k hk
    have hk' : k < g₂.length := List.mem_range.mp hk
    show (fun k => Particle.mk ((g₁ ++ g₂).getD k 0) ((f₁ ++ f₂).getD k 0)
        ((s₁ ++ s₂).getD k 0) ((p₁ ++ p₂).getD (k * 11 + 0) 0) ((p₁ ++ p₂).getD (k * 11 + 1) 0)
        ((p₁ ++ p₂).getD (k * 11 + 2) 0) ((p₁ ++ p₂).getD (k * 11 + 3) 0)
        ((p₁ ++ p₂).getD (k * 11 + 4) 0) ((p₁ ++ p₂).getD (k * 11 + 5) 0)
        ((p₁ ++ p₂).getD (k * 11 + 6) 0) ((p₁ ++ p₂).getD (k * 11 + 7) 0)
        ((p₁ ++ p₂).getD (k * 11 + 8) 0) ((p₁ ++ p₂).getD (k * 11 + 9) 0)
        ((p₁ ++ p₂).getD (k * 11 + 10) 0) ((d₁ ++ d₂).getD k 0)) (g₁.length + k) = _
    have e1 : (g₁ ++ g₂).getD (g₁.length + k) 0 = g₂.getD k 0 := by
      rw [List.getD_append_right _ _ _ _ (by omega)]
      congr 1
      omega
    have e2 : (f₁ ++ f₂).getD (g₁.length + k) 0 = f₂.getD k 0 := by
      rw [List.getD_append_right _ _ _ _ (by omega)]
      congr 1
      omega
    have e3 : (s₁ ++ s₂).getD (g₁.length + k) 0 = s₂.getD k 0 := by
      rw [List.getD_append_right _ _ _ _ (by omega)]
      congr 1
      omega
    have e4 : (d₁ ++ d₂).getD (g₁.length + k) 0 = d₂.getD k 0 := by
      rw [List.getD_append_right _ _ _ _ (by omega)]
      congr 1
      omega
    simp only [e1, e2, e3, e4, getD_phase_right p₁ p₂ g₁.length k 0 hp,
      getD_phase_right p₁ p₂ g₁.length k 1 hp, getD_phase_right p₁ p₂ g₁.length k 2 hp,
      getD_phase_right p₁ p₂ g₁.length k 3 hp, getD_phase_right p₁ p₂ g₁.length k 4 hp,
      getD_phase_right p₁ p₂ g₁.length k 5 hp, getD_phase_right p₁ p₂ g₁.length k 6 hp,
      getD_phase_right p₁ p₂ g₁.length k 7 hp, getD_phase_right p₁ p₂ g₁.length k 8 hp,
      getD_phase_right p₁ p₂ g₁.length k 9 hp, getD_phase_right p₁ p₂ g₁.length k 10 hp]

/-- Reconstructing from the concatenated column arrays of several aligned
ranks yields the concatenation of the per-rank reconstructions. -/
theorem reconstruct_flatten (ranks : List SpeciesLocal) (h : ∀ x ∈ ranks, alignedLocal x) :
    reconstruct (ranks.map (fun x => x.gid)).flatten (ranks.map (fun x => x.flag)).flatten
      (ranks.map (fun x => x.esc_step)).flatten (ranks.map (fun x => x.dw)).flatten
      (ranks.map (fun x => x.phase)).flatten =
    (ranks.map (fun x => reconstruct x.gid x.flag x.esc_step x.dw x.phase)).flatten := by
  induction ranks with
  | nil => rfl
  | cons x rest ih =>
    obtain ⟨hf, hs, hd, hp⟩ := h x (List.mem_cons_self x rest)
    simp only [List.map_cons, List.flatten_cons]
    rw [reconstruct_append _ _ _ _ _ _ _ _ _ _ hf hs hd hp,
      ih (fun y hy => h y (List.mem_cons_of_mem x hy))]

theorem length_reconstruct (gid flag esc : List Int) (dw phase : List ℚ) :
    (reconstruct gid flag esc dw phase).length = gid.length := by
  simp [reconstruct]

/-- C3: for every per-species heatload gather, after the two-phase exchange
(all-gather of the per-rank record counts, prefix-sum displacements, gather
of each column — the phase column with lengths scaled by 11) the
coordinator's reconstructed record sequence is exactly the per-rank record
sequences concatenated in ascending rank order, so it has `n_0 + … + n_{W-1}`
records and every record's scalar fields and 11-wide phase vector come from
the same record of the same worker. -/
theorem heatload_gather_roundtrip (ranks : List SpeciesLocal)
    (h : ∀ x ∈ ranks, alignedLocal x) :
    Heatload.gatherSpecies ranks =
      (ranks.map (fun x => reconstruct x.gid x.flag x.esc_step x.dw x.phase)).flatten ∧
    (Heatload.gatherSpecies ranks).length = (ranks.map (fun x => x.gid.length)).sum := by
  have hgid : ranks.map (fun x => x.gid.length) =
      (ranks.map (fun x => x.gid)).map List.length := by
    rw [List.map_map]
    exact List.map_congr_left (fun x _ => rfl)
  have hflag : ranks.map (fun x => x.gid.length) =
      (ranks.map (fun x => x.flag)).map List.length := by
    rw [List.map_map]
    exact List.map_congr_left (fun x hx => ((h x hx).1).symm)
  have hesc : ranks.map (fun x => x.gid.length) =
      (ranks.map (fun x => x.esc_step)).map List.length := by
    rw [List.map_map]
    exact List.map_congr_left (fun x hx => ((h x hx).2.1).symm)
  have hdw : ranks.map (fun x => x.gid.length) =
      (ranks.map (fun x => x.dw)).map List.length := by
    rw [List.map_map]
    exact List.map_congr_left (fun x hx => ((h x hx).2.2.1).symm)
  have hphase : (ranks.map (fun x => x.gid.length)).map (fun n => n * 11) =
      (ranks.map (fun x => x.phase)).map List.length := by
    rw [List.map_map, List.map_map]
    exact List.map_congr_left (fun x hx => ((h x hx).2.2.2).symm)
  have hmain : Heatload.gatherSpecies ranks =
      reconstruct (ranks.map (fun x => x.gid)).flatten (ranks.map (fun x => x.flag)).flatten
        (ranks.map (fun x => x.esc_step)).flatten (ranks.map (fun x => x.dw)).flatten
        (ranks.map (fun x => x.phase)).flatten := by
    show reconstruct
        (gatherv 0 (ranks.map (fun x => x.gid)) (ranks.map (fun x => x.gid.length))
          (displacements (ranks.map (fun x => x.gid.length)))
          (ranks.map (fun x => x.gid.length)).sum)
        (gatherv 0 (ranks.map (fun x => x.flag)) (ranks.map (fun x => x.gid.length))
          (displacements (ranks.map (fun x => x.gid.length)))
          (ranks.map (fun x => x.gid.length)).sum)
        (gatherv 0 (ranks.map (fun x => x.esc_step)) (ranks.map (fun x => x.gid.length))
          (displacements (ranks.map (fun x => x.gid.length)))
          (ranks.map (fun x => x.gid.length)).sum)
        (gatherv 0 (ranks.map (fun x => x.dw)) (ranks.map (fun x => x.gid.length))
          (displacements (ranks.map (fun x => x.gid.length)))
          (ranks.map (fun x => x.gid.length)).sum)
        (gatherv 0 (ranks.map (fun x => x.phase))
          ((ranks.map (fun x => x.gid.length)).map (fun n => n * 11))
          (displacements ((ranks.map (fun x => x.gid.length)).map (fun n => n * 11)))
          ((ranks.map (fun x => x.gid.length)).sum * 11)) = _
    rw [gatherv_flatten 0 (ranks.map (fun x => x.gid)) _ _ hgid rfl,
      gatherv_flatten 0 (ranks.map (fun x => x.flag)) _ _ hflag rfl,
      gatherv_flatten 0 (ranks.map (fun x => x.esc_step)) _ _ hesc rfl,
      gatherv_flatten 0 (ranks.map (fun x => x.dw)) _ _ hdw rfl,
      gatherv_flatten 0 (ranks.map (fun x => x.phase)) _ _ hphase
        (sum_map_mul11 (ranks.map (fun x => x.gid.length))).symm]
  have h1 : Heatload.gatherSpecies ranks =
      (ranks.map (fun x => reconstruct x.gid x.flag x.esc_step x.dw x.phase)).flatten := by
    rw [hmain, reconstruct_flatten ranks h]
  refine ⟨h1, ?_⟩
  rw [h1, List.length_flatten, List.map_map]
  congr 1
  exact List.map_congr_left (fun x _ => length_reconstruct ..)

/-- Witness for C3 at the spec's example: worker record counts 0, 3, 5. -/
theorem heatload_gather_roundtrip_witness :
    (∀ x ∈ wRanks, alignedLocal x) ∧
    (Heatload.gatherSpecies wRanks =
      (wRanks.map (fun x => reconstruct x.gid x.flag x.esc_step x.dw x.phase)).flatten ∧
     (Heatload.gatherSpecies wRanks).length = (wRanks.map (fun x => x.gid.length)).sum) :=
  ⟨by decide, heatload_gather_roundtrip wRanks (by decide)⟩

/-- C5: in a processed batch, a record whose decoded escape bit is set is
among the escaped-set candidates and absent from the confined list, and a
record whose escape bit is clear is on the confined list and absent from the
escaped-set candidates — for the ion batch and the electron batch alike. -/
theorem heatload_escape_classification (esc : Int → Bool) (ibatch ebatch : List Particle)
    (p : Particle) :
    (p ∈ ibatch →
      (esc p.flag = true →
        p ∈ Heatload.escCandidates esc ibatch ∧ p ∉ Heatload.divList esc ibatch) ∧
      (esc p.flag = false →
        p ∈ Heatload.divList esc ibatch ∧ p ∉ Heatload.escCandidates esc ibatch)) ∧
    (p ∈ ebatch →
      (esc p.flag = true →
        p ∈ Heatload.escCandidates esc ebatch ∧ p ∉ Heatload.divList esc ebatch) ∧
      (esc p.flag = false →
        p ∈ Heatload.divList esc ebatch ∧ p ∉ Heatload.escCandidates esc ebatch)) := by
  constructor <;>
    · intro hp
      constructor <;> intro hesc <;> constructor <;>
        simp [Heatload.escCandidates, Heatload.divList, List.mem_filter, hp, hesc]

/-- Witness for C5 on the synthetic 4-escaped/6-confined batch: one escaped
and one confined record, classified on both sides. -/
theorem heatload_escape_classification_witness :
    wPtl 1 1 ∈ wBatch ∧ wEsc (wPtl 1 1).flag = true ∧
    (wPtl 1 1 ∈ Heatload.escCandidates wEsc wBatch ∧
      wPtl 1 1 ∉ Heatload.divList wEsc wBatch) ∧
    wPtl 5 0 ∈ wBatch ∧ wEsc (wPtl 5 0).flag = false ∧
    (wPtl 5 0 ∈ Heatload.divList wEsc wBatch ∧
      wPtl 5 0 ∉ Heatload.escCandidates wEsc wBatch) :=
  ⟨by decide, by decide,
    ((heatload_escape_classification wEsc wBatch wBatch (wPtl 1 1)).1 (by decide)).1 (by decide),
    by decide, by decide,
    ((heatload_escape_classification wEsc wBatch wBatch (wPtl 5 0)).1 (by decide)).2 (by decide)⟩

/-- C10: the shared length/displacement buffers are refreshed before each
species' scalar gathers — the four ion scalar gathers all use the one
displacement table computed from the ion lengths, the four electron scalar
gathers all use the one table recomputed from the freshly all-gathered
electron lengths (so the factor-11 scaling applied for the ion phase gather
never leaks into them), and each species' phase gather uses the table of its
own 11-scaled lengths. -/
theorem heatload_gather_tables (ilens elens : List Nat) :
    ((Heatload.gatherSchedule ilens elens).filter
        (fun c => c.var ∈ (["igid", "iflag", "istep", "idw"] : List String))).map
      (fun c => c.displacement_list) = List.replicate 4 (displacements ilens) ∧
    ((Heatload.gatherSchedule ilens elens).filter
        (fun c => c.var ∈ (["egid", "eflag", "estep", "edw"] : List String))).map
      (fun c => c.displacement_list) = List.replicate 4 (displacements elens) ∧
    ((Heatload.gatherSchedule ilens elens).filter (fun c => c.var = "iphase")).map
      (fun c => c.displacement_list) = [displacements (ilens.map (fun n => n * 11))] ∧
    ((Heatload.gatherSchedule ilens elens).filter (fun c => c.var = "ephase")).map
      (fun c => c.displacement_list) = [displacements (elens.map (fun n => n * 11))] ∧
    ((Heatload.gatherSchedule ilens elens).filter
        (fun c => c.var ∈ (["egid", "eflag", "estep", "edw"] : List String))).map
      (fun c => c.len_list) = List.replicate 4 elens :=
  ⟨rfl, rfl, rfl, rfl, rfl⟩

end XGC
